import Mathlib

/-!
Verification of the two-channel wavelet subband coder of the rust_wsq
repository. The Rust sources are shallowly embedded: samples and filter
coefficients (f64 in the source) are modelled as exact rationals, usize
arithmetic that can overflow is modelled with a checked subtraction
returning Option (none models the arithmetic-overflow abort of a debug
build), slice indexing with brackets is modelled by a checked lookup, and
iterator pipelines are modelled by explicitly fueled state machines whose
step functions mirror the Rust next methods line by line.
-/

namespace Wsq

/-- Checked usize subtraction: none models the abort on underflow. -/
def csub (a b : Nat) : Option Nat := if b ≤ a then some (a - b) else none

/-- Cast of a signed index value to usize. The as-cast in Rust wraps, so a
negative value lands just below two to the sixty-fourth power (an index
whose slice lookup is out of range); a nonnegative value is unchanged. -/
def usizeCast (i : Int) : Nat := if i < 0 then (i + (2 : Int) ^ 64).toNat else i.toNat

/-- The two variants of swt::signal::SignalExtension (the signal payload is
passed separately to the step function). -/
inductive SigKind where
  | half : SigKind
  | whole : SigKind
deriving DecidableEq

/-- State of swt::signal::SignalIter. -/
structure SignalIter where
  index : Nat
  dir : Int
  periodCount : Nat
deriving DecidableEq

/-- Initial iterator state from SignalExtension::into_iter. -/
def SignalIter.initFor : SigKind → SignalIter
  | .half => ⟨0, -1, 2⟩
  | .whole => ⟨1, -1, 2⟩

/-- One call of SignalIter::next. The outer Option is none when the call
aborts (usize underflow in the subtraction extension.len() - 1 or in
period_count -= 1); the inner Option is the value the iterator returns,
none meaning the iterator is exhausted. -/
def sigNext (kind : SigKind) (ext : List ℚ) (st : SignalIter) : Option (Option ℚ × SignalIter) :=
  match kind with
  | .half =>
    if st.index = 0 ∧ st.dir = -1 then
      match csub st.periodCount 1 with
      | none => none
      | some pc =>
        if pc = 0 then some (none, { st with periodCount := pc })
        else
          let st1 : SignalIter := { st with periodCount := pc, dir := 1 }
          some (ext.get? st1.index, st1)
    else
      match csub ext.length 1 with
      | none => none
      | some lastIdx =>
        if st.index = lastIdx ∧ st.dir = 1 then
          let st1 : SignalIter := { st with dir := -1 }
          some (ext.get? st1.index, st1)
        else
          let st1 : SignalIter := { st with index := usizeCast ((st.index : Int) + st.dir) }
          some (ext.get? st1.index, st1)
  | .whole =>
    if st.index = 0 ∧ st.dir = -1 then
      match csub st.periodCount 1 with
      | none => none
      | some pc =>
        if pc = 0 then some (none, { st with periodCount := pc })
        else
          let st1 : SignalIter := { st with periodCount := pc, dir := 1 }
          let st2 : SignalIter := { st1 with index := usizeCast ((st1.index : Int) + st1.dir) }
          some (ext.get? st2.index, st2)
    else
      match csub ext.length 1 with
      | none => none
      | some lastIdx =>
        if st.index = lastIdx ∧ st.dir = 1 then
          let st1 : SignalIter := { st with dir := -1 }
          let st2 : SignalIter := { st1 with index := usizeCast ((st1.index : Int) + st1.dir) }
          some (ext.get? st2.index, st2)
        else
          let st2 : SignalIter := { st with index := usizeCast ((st.index : Int) + st.dir) }
          some (ext.get? st2.index, st2)

/-- Collect every value the signal iterator yields, as the for loop over
the iterator inside Filter::apply does; fueled, with none propagating an
abort of a next call. -/
def sigCollect (kind : SigKind) (ext : List ℚ) : Nat → SignalIter → Option (List ℚ)
  | 0, _ => none
  | fuel + 1, st =>
    match sigNext kind ext st with
    | none => none
    | some (none, _) => some []
    | some (some v, st1) => (sigCollect kind ext fuel st1).map (fun l => v :: l)

/-- All values yielded by the extension iterator of a signal, from the
initial state, with fuel that is proved sufficient below. -/
def signalYields (kind : SigKind) (s : List ℚ) : Option (List ℚ) :=
  sigCollect kind s (2 * s.length + 3) (SignalIter.initFor kind)

/-- Result of the n-th next call (zero based) after n preceding calls. -/
def sigNextN (kind : SigKind) (ext : List ℚ) : Nat → SignalIter → Option (Option ℚ × SignalIter)
  | 0, st => sigNext kind ext st
  | n + 1, st =>
    match sigNext kind ext st with
    | none => none
    | some (_, st1) => sigNextN kind ext n st1

/-- swt::filter::Filter with its four symmetry classes. -/
inductive Filter where
  | WSS : List ℚ → Filter
  | HSS : List ℚ → Filter
  | WSA : List ℚ → Filter
  | HSA : List ℚ → Filter
deriving DecidableEq

/-- The stored coefficient vector of a filter. -/
def Filter.coeffs : Filter → List ℚ
  | .WSS c | .HSS c | .WSA c | .HSA c => c

/-- Filter::len, the mirrored length; checked because the whole-sample
formula coefficients.len() * 2 - 1 underflows for an empty vector. -/
def Filter.len : Filter → Option Nat
  | .WSS c | .WSA c => csub (c.length * 2) 1
  | .HSS c | .HSA c => some (c.length * 2)

/-- Filter::invert_even_negative: negate the even-indexed coefficients. -/
def Filter.invert_even_negative (c : List ℚ) : List ℚ :=
  c.enum.map (fun p => if p.1 % 2 = 0 then -p.2 else p.2)

/-- Filter::invert_odd_negative: negate the odd-indexed coefficients. -/
def Filter.invert_odd_negative (c : List ℚ) : List ℚ :=
  c.enum.map (fun p => if p.1 % 2 = 1 then -p.2 else p.2)

/-- Filter::invert, the dual-filter derivation. -/
def Filter.invert : Filter → Filter
  | .WSS c => .WSA (Filter.invert_even_negative c)
  | .WSA c => .WSS (Filter.invert_odd_negative c)
  | .HSS c => .HSA (Filter.invert_even_negative c)
  | .HSA c => .HSS (Filter.invert_odd_negative c)

/-- The four symmetry classes, as an enumeration used to state properties
of the dual derivation. -/
inductive SymClass where
  | wss : SymClass
  | hss : SymClass
  | wsa : SymClass
  | hsa : SymClass
deriving DecidableEq

/-- The symmetry class of a filter. -/
def Filter.symmetryClass : Filter → SymClass
  | .WSS _ => .wss
  | .HSS _ => .hss
  | .WSA _ => .wsa
  | .HSA _ => .hsa

/-- Flip symmetric and antisymmetric at the same sample parity. -/
def SymClass.dual : SymClass → SymClass
  | .wss => .wsa
  | .wsa => .wss
  | .hss => .hsa
  | .hsa => .hss

/-- Whether a class is one of the two symmetric ones. -/
def SymClass.isSymmetric : SymClass → Bool
  | .wss | .hss => true
  | .wsa | .hsa => false

/-- swt::filter::FilterExtension. -/
inductive FilterExtension where
  | HalfSampleLowpass : List ℚ → FilterExtension
  | WholeSampleLowpass : List ℚ → FilterExtension
  | HalfSampleHighpass : List ℚ → FilterExtension
  | WholeSampleHighpass : List ℚ → FilterExtension

/-- FilterExtension::period; checked for the same underflow as Filter::len. -/
def FilterExtension.period : FilterExtension → Option Nat
  | .WholeSampleLowpass c => csub (c.length * 2) 1
  | .HalfSampleLowpass c => some (c.length * 2)
  | .WholeSampleHighpass c => csub (c.length * 2) 1
  | .HalfSampleHighpass c => some (c.length * 2)

/-- The destructuring at the top of FilterIter::next: underlying vector,
highpass flag, whole-sample offset. -/
def FilterExtension.parts : FilterExtension → List ℚ × Bool × Nat
  | .HalfSampleLowpass c => (c, false, 0)
  | .WholeSampleLowpass c => (c, false, 1)
  | .HalfSampleHighpass c => (c, true, 0)
  | .WholeSampleHighpass c => (c, true, 1)

/-- State of swt::filter::FilterIter (the extension is passed separately). -/
structure FilterIter where
  index : Nat
  period : Nat
deriving DecidableEq

/-- One call of FilterIter::next; outer none models an abort in the usize
subtractions or in the bracket indexing of the coefficient vector. -/
def filtNext (ext : FilterExtension) (st : FilterIter) : Option (Option ℚ × FilterIter) :=
  match ext.parts with
  | (c, highpass, offset) =>
    match csub c.length offset with
    | none => none
    | some lastMirrored =>
      let result : Option (Option ℚ) :=
        if st.index = st.period then some none
        else if st.index < lastMirrored then
          match csub c.length st.index with
          | none => none
          | some d =>
            match csub d 1 with
            | none => none
            | some pos =>
              match c.get? pos with
              | none => none
              | some coefficient =>
                some (some (if highpass then -coefficient else coefficient))
        else if st.index < st.period then
          match csub st.index lastMirrored with
          | none => none
          | some pos =>
            match c.get? pos with
            | none => none
            | some coefficient => some (some coefficient)
        else some none
      match result with
      | none => none
      | some r => some (r, { st with index := st.index + 1 })

/-- Collect every value the coefficient iterator yields; fueled. -/
def filtCollect (ext : FilterExtension) : Nat → FilterIter → Option (List ℚ)
  | 0, _ => none
  | fuel + 1, st =>
    match filtNext ext st with
    | none => none
    | some (none, _) => some []
    | some (some v, st1) => (filtCollect ext fuel st1).map (fun l => v :: l)

/-- The FilterExtension chosen by Filter::coefficients. -/
def Filter.filterExtension : Filter → FilterExtension
  | .WSA c => .WholeSampleHighpass c
  | .HSA c => .HalfSampleHighpass c
  | .WSS c => .WholeSampleLowpass c
  | .HSS c => .HalfSampleLowpass c

/-- All values yielded by Filter::coefficients, the symmetry-extended
coefficient sequence; none models an abort in into_iter (period) or next. -/
def Filter.coefficientsList (f : Filter) : Option (List ℚ) :=
  match f.filterExtension.period with
  | none => none
  | some p => filtCollect f.filterExtension (p + 1) ⟨0, p⟩

/-- Filter::apply: extend the signal, form the outer product with the
extended coefficients, sum anti-diagonals from the trimming boundary. -/
def Filter.apply (f : Filter) (signal : List ℚ) : Option (List ℚ) :=
  match f.coefficientsList with
  | none => none
  | some coefficients =>
    let kind : SigKind :=
      match f with
      | .WSS _ | .WSA _ => .whole
      | .HSS _ | .HSA _ => .half
    match signalYields kind signal with
    | none => none
    | some ext =>
      let stacked := ext.map (fun s => coefficients.map (fun c => c * s))
      match stacked.get? 0 with
      | none => none
      | some col0 =>
        match csub (stacked.length + col0.length) 1 with
        | none => none
        | some m =>
          let maxSize := m / 2
          match f.len with
          | none => none
          | some flen =>
            match csub (flen / 2) 1 with
            | none => none
            | some boundary =>
              some ((List.range' boundary (maxSize - boundary)).map (fun i =>
                ((List.range (i + 1)).map (fun j =>
                  (((stacked.get? (i - j)).bind (fun column => column.get? j)).getD 0))).sum))

/-- TwoChannelSubbandCoder::downsample: keep even-indexed samples. -/
def downsample : List ℚ → List ℚ
  | [] => []
  | [a] => [a]
  | a :: _ :: rest => a :: downsample rest

/-- TwoChannelSubbandCoder::upsample: write each sample at the even slots
of a zero vector of twice the length. -/
def upsample : List ℚ → List ℚ
  | [] => []
  | a :: rest => a :: 0 :: upsample rest

/-- swt::TwoChannelSubbandCoder. -/
structure TwoChannelSubbandCoder where
  h_lowpass : Filter
  h_highpass : Filter
  f_lowpass : Filter
  f_highpass : Filter
deriving DecidableEq

/-- TwoChannelSubbandCoder::new: derive the synthesis filters by dual
inversion; no validation of any kind is performed. -/
def TwoChannelSubbandCoder.new (h_lowpass h_highpass : Filter) : TwoChannelSubbandCoder :=
  { h_lowpass := h_lowpass, h_highpass := h_highpass,
    f_lowpass := h_highpass.invert, f_highpass := h_lowpass.invert }

/-- TwoChannelSubbandCoder::analysis_1d. -/
def TwoChannelSubbandCoder.analysis_1d (coder : TwoChannelSubbandCoder) (signal : List ℚ) :
    Option (List ℚ × List ℚ) :=
  match coder.h_lowpass.apply signal, coder.h_highpass.apply signal with
  | some lowpassed, some highpassed => some (downsample lowpassed, downsample highpassed)
  | _, _ => none

/-- TwoChannelSubbandCoder::synthesis_1d: upsample, filter, add pointwise
(the zip truncates to the shorter operand, exactly as in the source). -/
def TwoChannelSubbandCoder.synthesis_1d (coder : TwoChannelSubbandCoder) (a_0 a_1 : List ℚ) :
    Option (List ℚ) :=
  match coder.f_lowpass.apply (upsample a_0), coder.f_highpass.apply (upsample a_1) with
  | some x0, some x1 => some (List.zipWith (fun u v => u + v) x0 x1)
  | _, _ => none

/-- State shared by the two extension iterators of dwt::one_dimension
(WholeSampleSymmetricExtension and HalfSampleSymmetricExtension); the
period field is set by the constructors and never read by next. -/
structure DwtExtensionIter where
  index : Nat
  period : Int
  dir : Int
deriving DecidableEq

/-- From for WholeSampleSymmetricExtension. -/
def wsDwtInit (signal : List ℚ) : DwtExtensionIter :=
  ⟨0, 2 * (signal.length : Int) - 2, 1⟩

/-- HalfSampleSymmetricExtension::from. -/
def hsDwtInit (signal : List ℚ) : DwtExtensionIter :=
  ⟨0, (signal.length : Int) * 2, 1⟩

/-- WholeSampleSymmetricExtension::next: read the current sample first,
then flip direction at a boundary or advance otherwise. -/
def wsDwtNext (inner : List ℚ) (st : DwtExtensionIter) : Option (Option ℚ × DwtExtensionIter) :=
  let result := inner.get? st.index
  if st.index = 0 ∧ st.dir = -1 then
    some (result, { st with dir := -st.dir })
  else
    match csub inner.length 1 with
    | none => none
    | some lastIdx =>
      if st.index = lastIdx ∧ st.dir = 1 then
        some (result, { st with dir := -st.dir })
      else
        some (result, { st with index := usizeCast ((st.index : Int) + st.dir) })

/-- HalfSampleSymmetricExtension::next: read the current sample first,
flip direction at a boundary, then always advance. -/
def hsDwtNext (inner : List ℚ) (st : DwtExtensionIter) : Option (Option ℚ × DwtExtensionIter) :=
  let result := inner.get? st.index
  if st.index = 0 ∧ st.dir = -1 then
    let st1 : DwtExtensionIter := { st with dir := -st.dir }
    some (result, { st1 with index := usizeCast ((st1.index : Int) + st1.dir) })
  else
    match csub inner.length 1 with
    | none => none
    | some lastIdx =>
      if st.index = lastIdx ∧ st.dir = 1 then
        let st1 : DwtExtensionIter := { st with dir := -st.dir }
        some (result, { st1 with index := usizeCast ((st1.index : Int) + st1.dir) })
      else
        some (result, { st with index := usizeCast ((st.index : Int) + st.dir) })

/-- Iterator::take(n).collect() for the dwt extension iterators: collect
up to n yielded values, stopping early if the iterator is exhausted. -/
def dwtTake (next : DwtExtensionIter → Option (Option ℚ × DwtExtensionIter)) :
    Nat → DwtExtensionIter → Option (List ℚ)
  | 0, _ => some []
  | n + 1, st =>
    match next st with
    | none => none
    | some (none, _) => some []
    | some (some v, st1) => (dwtTake next n st1).map (fun l => v :: l)

/-- Plain discrete convolution of two finite sequences; entry k is the sum
over the k-th anti-diagonal of the outer product. -/
def convolve (a b : List ℚ) : List ℚ :=
  (List.range (a.length + b.length - 1)).map (fun k =>
    ((List.range (k + 1)).map (fun j => ((a.get? j).getD 0) * ((b.get? (k - j)).getD 0))).sum)

/-- Negate the odd-indexed entries of a sequence; on a transfer function
this substitutes minus z for z. -/
def alternateSignNegation (l : List ℚ) : List ℚ :=
  l.enum.map (fun p => if p.1 % 2 = 1 then -p.2 else p.2)

/-- Modelled from the spec: the spec calls an analysis pair complementary
(a complementary quadrature pair achieving perfect reconstruction, with
synthesis filters produced only by the dual derivation) without giving a
formula, so we use the textbook perfect-reconstruction conditions of a
two-channel filter bank for the mirrored filter sequences and the duals
that Filter::invert derives: the distortion term is twice a pure delay
(a single nonzero convolution-sum entry, equal to two) and the alias term
vanishes identically. -/
def isComplementary (h0 h1 : Filter) : Bool :=
  match h0.coefficientsList, h1.coefficientsList,
      (h1.invert).coefficientsList, (h0.invert).coefficientsList with
  | some e0, some e1, some f0, some f1 =>
    let distortion := List.zipWith (fun u v => u + v) (convolve e0 f0) (convolve e1 f1)
    let aliasTerm := List.zipWith (fun u v => u + v)
      (convolve (alternateSignNegation e0) f0) (convolve (alternateSignNegation e1) f1)
    decide (distortion.filter (fun x => decide (x ≠ 0)) = [2]) &&
      aliasTerm.all (fun x => decide (x = 0))
  | _, _, _, _ => false

/-- The elementwise comparison used by the repository tests
(assert_close_enough): equal lengths and componentwise absolute
difference below the tolerance. -/
def closeEnough (tol : ℚ) (actual expected : List ℚ) : Bool :=
  decide (actual.length = expected.length) &&
    (List.zip actual expected).all (fun p => decide (|p.1 - p.2| < tol))

/-- swt::FloatImage. -/
structure FloatImage where
  data : List ℚ
  width : Nat
  height : Nat
  min_value : ℚ
  max_value : ℚ
deriving DecidableEq

/-- From of Vec of rows: width is the length of the first row (aborts on
an empty row list, as value with index zero does in the source). -/
def FloatImage.fromRows : List (List ℚ) → Option FloatImage
  | [] => none
  | r0 :: rest =>
    some { data := (r0 :: rest).flatten, width := r0.length,
           height := (r0 :: rest).length, min_value := 0, max_value := 1 }

/-- Successive chunks of size w of a list, fueled (fuel at least the list
length suffices when w is positive). -/
def chunksGo (w : Nat) : Nat → List ℚ → List (List ℚ)
  | _, [] => []
  | 0, _ :: _ => []
  | fuel + 1, a :: rest => ((a :: rest).take w) :: chunksGo w fuel ((a :: rest).drop w)

/-- FloatImage::rows, data.chunks(width); chunks aborts on width zero. -/
def FloatImage.rows (img : FloatImage) : Option (List (List ℚ)) :=
  if img.width = 0 then none else some (chunksGo img.width img.data.length img.data)

/-- FloatImage::columns via the Columns iterator: one gathered vector per
column index, stepping through the flat buffer by the width; the bracket
indexing data with index i plus col is checked. -/
def FloatImage.columnsList (img : FloatImage) : Option (List (List ℚ)) :=
  (List.range img.width).mapM (fun col =>
    ((List.range img.data.length).filter (fun i => i % img.width = 0)).mapM
      (fun i => img.data.get? (i + col)))

/-- FloatImage::rotate: replace data by the flattened columns and swap
width with height. -/
def FloatImage.rotate (img : FloatImage) : Option FloatImage :=
  match img.columnsList with
  | none => none
  | some cols =>
    some { data := cols.flatten, width := img.height, height := img.width,
           min_value := img.min_value, max_value := img.max_value }

instance : DecidableEq (Except String FloatImage) := fun x y =>
  match x, y with
  | .ok a, .ok b =>
    if h : a = b then isTrue (congrArg Except.ok h)
    else isFalse (fun hh => h (Except.ok.inj hh))
  | .error a, .error b =>
    if h : a = b then isTrue (congrArg Except.error h)
    else isFalse (fun hh => h (Except.error.inj hh))
  | .ok _, .error _ => isFalse (fun hh => Except.noConfusion hh)
  | .error _, .ok _ => isFalse (fun hh => Except.noConfusion hh)

/-- TwoChannelSubbandCoder::row_synthesis: zip the row lists (the zip
silently truncates to the shorter image), reconstruct each pair, rebuild
an image; the only Err value in the Rust signature is never produced. -/
def TwoChannelSubbandCoder.row_synthesis (coder : TwoChannelSubbandCoder)
    (image_lowpass image_highpass : FloatImage) : Option (Except String FloatImage) :=
  match image_lowpass.rows, image_highpass.rows with
  | some rowsL, some rowsH =>
    match (List.zip rowsL rowsH).mapM (fun p => coder.synthesis_1d p.1 p.2) with
    | none => none
    | some data =>
      match FloatImage.fromRows data with
      | none => none
      | some result =>
        some (Except.ok { result with
          max_value := (image_highpass.max_value + image_lowpass.max_value) / 2 })
  | _, _ => none

/-- TwoChannelSubbandCoder::column_synthesis: like row_synthesis but over
gathered columns, rotating the assembled image back at the end. -/
def TwoChannelSubbandCoder.column_synthesis (coder : TwoChannelSubbandCoder)
    (image_lowpass image_highpass : FloatImage) : Option (Except String FloatImage) :=
  match image_lowpass.columnsList, image_highpass.columnsList with
  | some colsL, some colsH =>
    match (List.zip colsL colsH).mapM (fun p => coder.synthesis_1d p.1 p.2) with
    | none => none
    | some data =>
      match FloatImage.fromRows data with
      | none => none
      | some result =>
        match result.rotate with
        | none => none
        | some rotated =>
          some (Except.ok { rotated with
            max_value := (image_highpass.max_value + image_lowpass.max_value) / 2 })
  | _, _ => none

/-- TwoChannelSubbandCoder::synthesis over the four subbands, with the
question-mark operator propagating any Err (none ever arises). -/
def TwoChannelSubbandCoder.synthesis (coder : TwoChannelSubbandCoder)
    (a : FloatImage × FloatImage × FloatImage × FloatImage) :
    Option (Except String FloatImage) :=
  match coder.row_synthesis a.1 a.2.1 with
  | none => none
  | some (Except.error e) => some (Except.error e)
  | some (Except.ok y0) =>
    match coder.row_synthesis a.2.2.1 a.2.2.2 with
    | none => none
    | some (Except.error e) => some (Except.error e)
    | some (Except.ok y1) => coder.column_synthesis y0 y1

theorem enumFrom_map_lookup (g : Nat → ℚ → ℚ) :
    ∀ (c : List ℚ) (n i : Nat),
      ((List.enumFrom n c).map (fun p => g p.1 p.2)).get? i =
        (c.get? i).map (fun x => g (n + i) x)
  | [], _, _ => by simp
  | _ :: _, _, 0 => by simp [List.enumFrom]
  | a :: t, n, i + 1 => by
    have h := enumFrom_map_lookup g t (n + 1) i
    have e : n + 1 + i = n + (i + 1) := by omega
    simpa [List.enumFrom, e] using h

theorem invert_even_negative_lookup (c : List ℚ) (i : Nat) :
    (Filter.invert_even_negative c).get? i =
      (c.get? i).map (fun x => if i % 2 = 0 then -x else x) := by
  have h := enumFrom_map_lookup (fun k x => if k % 2 = 0 then -x else x) c 0 i
  simpa [Filter.invert_even_negative, List.enum] using h

theorem invert_odd_negative_lookup (c : List ℚ) (i : Nat) :
    (Filter.invert_odd_negative c).get? i =
      (c.get? i).map (fun x => if i % 2 = 1 then -x else x) := by
  have h := enumFrom_map_lookup (fun k x => if k % 2 = 1 then -x else x) c 0 i
  simpa [Filter.invert_odd_negative, List.enum] using h

theorem invert_even_negative_length (c : List ℚ) :
    (Filter.invert_even_negative c).length = c.length := by
  simp [Filter.invert_even_negative]

theorem invert_odd_negative_length (c : List ℚ) :
    (Filter.invert_odd_negative c).length = c.length := by
  simp [Filter.invert_odd_negative]

/-- C4: inversion flips the symmetry class between symmetric and
antisymmetric at the same sample parity, keeps the coefficient count, and
negates exactly the even-indexed stored coefficients of a symmetric
filter and exactly the odd-indexed stored coefficients of an
antisymmetric filter. -/
theorem c4_invert_parity_negation (f : Filter) :
    (f.invert).symmetryClass = f.symmetryClass.dual ∧
    (f.invert).coeffs.length = f.coeffs.length ∧
    ∀ i : Nat,
      (f.invert).coeffs.get? i = (f.coeffs.get? i).map (fun x =>
        if (f.symmetryClass.isSymmetric = true ∧ i % 2 = 0) ∨
            (f.symmetryClass.isSymmetric = false ∧ i % 2 = 1) then -x else x) := by
  cases f with
  | WSS c =>
    refine ⟨rfl, invert_even_negative_length c, fun i => ?_⟩
    have h := invert_even_negative_lookup c i
    simpa [Filter.invert, Filter.coeffs, Filter.symmetryClass, SymClass.isSymmetric] using h
  | HSS c =>
    refine ⟨rfl, invert_even_negative_length c, fun i => ?_⟩
    have h := invert_even_negative_lookup c i
    simpa [Filter.invert, Filter.coeffs, Filter.symmetryClass, SymClass.isSymmetric] using h
  | WSA c =>
    refine ⟨rfl, invert_odd_negative_length c, fun i => ?_⟩
    have h := invert_odd_negative_lookup c i
    simpa [Filter.invert, Filter.coeffs, Filter.symmetryClass, SymClass.isSymmetric] using h
  | HSA c =>
    refine ⟨rfl, invert_odd_negative_length c, fun i => ?_⟩
    have h := invert_odd_negative_lookup c i
    simpa [Filter.invert, Filter.coeffs, Filter.symmetryClass, SymClass.isSymmetric] using h

theorem usizeCast_nat (n : Nat) : usizeCast (n : Int) = n := by
  simp [usizeCast]

theorem usizeCast_add_one (i : Nat) : usizeCast ((i : Int) + 1) = i + 1 := by
  have e : ((i : Nat) : Int) + 1 = ((i + 1 : Nat) : Int) := by push_cast; ring
  rw [e, usizeCast_nat]

theorem csub_pos (a b : Nat) (h : b ≤ a) : csub a b = some (a - b) := by
  simp [csub, h]

theorem csub_neg (a b : Nat) (h : a < b) : csub a b = none := by
  simp [csub]
  omega

theorem lookup_getElem {s : List ℚ} {i : Nat} {v : ℚ} (hv : s.get? i = some v) :
    ∃ h : i < s.length, s[i] = v := by
  obtain ⟨h, hg⟩ := List.get?_eq_some.mp hv
  exact ⟨h, by simpa [List.get_eq_getElem] using hg⟩

theorem sigCollect_cons {kind : SigKind} {ext : List ℚ} (fuel : Nat) {st st1 : SignalIter}
    {v : ℚ} (h : sigNext kind ext st = some (some v, st1)) :
    sigCollect kind ext (fuel + 1) st = (sigCollect kind ext fuel st1).map (fun l => v :: l) := by
  simp [sigCollect, h]

theorem sigCollect_stop {kind : SigKind} {ext : List ℚ} (fuel : Nat) {st st1 : SignalIter}
    (h : sigNext kind ext st = some (none, st1)) :
    sigCollect kind ext (fuel + 1) st = some [] := by
  simp [sigCollect, h]

theorem sigNext_half_end (s : List ℚ) :
    sigNext .half s ⟨0, -1, 1⟩ = some (none, ⟨0, -1, 0⟩) := by
  simp [sigNext, csub]

theorem sigNext_half_restart (s : List ℚ) (pc : Nat) :
    sigNext .half s ⟨0, -1, pc + 2⟩ = some (s.get? 0, ⟨0, 1, pc + 1⟩) := by
  simp [sigNext, csub]

theorem sigNext_half_step_down (s : List ℚ) (i pc : Nat) (h1 : 1 ≤ s.length) :
    sigNext .half s ⟨i + 1, -1, pc⟩ = some (s.get? i, ⟨i, -1, pc⟩) := by
  have e : ((i + 1 : Nat) : Int) + (-1) = ((i : Nat) : Int) := by push_cast; ring
  simp [sigNext, csub_pos s.length 1 h1, e, usizeCast_nat]

theorem sigNext_half_step_up (s : List ℚ) (i pc : Nat) (h1 : 1 ≤ s.length)
    (hne : i ≠ s.length - 1) :
    sigNext .half s ⟨i, 1, pc⟩ = some (s.get? (i + 1), ⟨i + 1, 1, pc⟩) := by
  simp [sigNext, csub_pos s.length 1 h1, hne, usizeCast_add_one]

theorem sigNext_half_flip (s : List ℚ) (pc : Nat) (h1 : 1 ≤ s.length) :
    sigNext .half s ⟨s.length - 1, 1, pc⟩ =
      some (s.get? (s.length - 1), ⟨s.length - 1, -1, pc⟩) := by
  simp [sigNext, csub_pos s.length 1 h1]

theorem sigCollect_half_down (s : List ℚ) :
    ∀ i fuel, i ≤ s.length → i + 1 ≤ fuel →
      sigCollect .half s fuel ⟨i, -1, 1⟩ = some ((s.take i).reverse) := by
  intro i
  induction i with
  | zero =>
    intro fuel _ hfuel
    obtain ⟨f, rfl⟩ : ∃ f, fuel = f + 1 := ⟨fuel - 1, by omega⟩
    rw [sigCollect_stop f (sigNext_half_end s)]
    simp
  | succ i ih =>
    intro fuel hi hfuel
    obtain ⟨f, rfl⟩ : ∃ f, fuel = f + 1 := ⟨fuel - 1, by omega⟩
    obtain ⟨v, hv⟩ : ∃ v, s.get? i = some v := ⟨_, List.get?_eq_get (by omega)⟩
    have hnext := sigNext_half_step_down s i 1 (by omega)
    rw [hv] at hnext
    rw [sigCollect_cons f hnext, ih f (by omega) (by omega)]
    obtain ⟨hlt, hgv⟩ := lookup_getElem hv
    simp [List.take_succ, List.getElem?_eq_getElem hlt, hgv]

theorem sigCollect_half_up (s : List ℚ) :
    ∀ k i fuel, i + k + 1 = s.length → k + s.length + 2 ≤ fuel →
      sigCollect .half s fuel ⟨i, 1, 1⟩ = some (s.drop (i + 1) ++ s.reverse) := by
  intro k
  induction k with
  | zero =>
    intro i fuel hi hfuel
    obtain ⟨f, rfl⟩ : ∃ f, fuel = f + 1 := ⟨fuel - 1, by omega⟩
    have hlast : i = s.length - 1 := by omega
    subst hlast
    obtain ⟨v, hv⟩ : ∃ v, s.get? (s.length - 1) = some v := ⟨_, List.get?_eq_get (by omega)⟩
    have hnext := sigNext_half_flip s 1 (by omega)
    rw [hv] at hnext
    rw [sigCollect_cons f hnext, sigCollect_half_down s (s.length - 1) f (by omega) (by omega)]
    obtain ⟨hlt, hgv⟩ := lookup_getElem hv
    have htake : s.take (s.length - 1 + 1) = s.take (s.length - 1) ++ [v] := by
      rw [List.take_succ, List.getElem?_eq_getElem hlt, hgv]
      rfl
    have hsrev : s.reverse = v :: (s.take (s.length - 1)).reverse := by
      have h1 : s.take (s.length - 1 + 1) = s := by
        rw [show s.length - 1 + 1 = s.length from by omega, List.take_length]
      rw [← h1, htake]
      simp
    rw [List.drop_eq_nil_of_le (by omega), hsrev]
    simp
  | succ k ih =>
    intro i fuel hi hfuel
    obtain ⟨f, rfl⟩ : ∃ f, fuel = f + 1 := ⟨fuel - 1, by omega⟩
    obtain ⟨v, hv⟩ : ∃ v, s.get? (i + 1) = some v := ⟨_, List.get?_eq_get (by omega)⟩
    have hnext := sigNext_half_step_up s i 1 (by omega) (by omega)
    rw [hv] at hnext
    rw [sigCollect_cons f hnext, ih (i + 1) f (by omega) (by omega)]
    obtain ⟨hlt, hgv⟩ := lookup_getElem hv
    have hdrop : s.drop (i + 1) = v :: s.drop (i + 2) := by
      rw [List.drop_eq_getElem_cons hlt, hgv]
    rw [hdrop]
    simp

theorem signalYields_half_eq (s : List ℚ) (h : s ≠ []) :
    signalYields .half s = some (s ++ s.reverse) := by
  obtain ⟨a, t, rfl⟩ : ∃ a t, s = a :: t := by
    cases s with
    | nil => exact absurd rfl h
    | cons a t => exact ⟨a, t, rfl⟩
  have hl : 1 ≤ (a :: t).length := by simp
  have hnext : sigNext .half (a :: t) (SignalIter.initFor .half) =
      some (some a, ⟨0, 1, 1⟩) := by
    have hr := sigNext_half_restart (a :: t) 0
    simpa [SignalIter.initFor] using hr
  unfold signalYields
  rw [show 2 * (a :: t).length + 3 = (2 * (a :: t).length + 2) + 1 from rfl]
  rw [sigCollect_cons _ hnext]
  rw [sigCollect_half_up (a :: t) ((a :: t).length - 1) 0 (2 * (a :: t).length + 2)
    (by omega) (by omega)]
  simp

theorem signalYields_half_nil : signalYields .half [] = some [] := by
  unfold signalYields
  rw [show 2 * ([] : List ℚ).length + 3 = (2 * ([] : List ℚ).length + 2) + 1 from rfl]
  have hnext : sigNext .half ([] : List ℚ) (SignalIter.initFor .half) =
      some (none, ⟨0, 1, 1⟩) := by
    have hr := sigNext_half_restart ([] : List ℚ) 0
    simpa [SignalIter.initFor] using hr
  rw [sigCollect_stop _ hnext]

theorem sigNext_whole_end (s : List ℚ) :
    sigNext .whole s ⟨0, -1, 1⟩ = some (none, ⟨0, -1, 0⟩) := by
  simp [sigNext, csub]

theorem sigNext_whole_restart (s : List ℚ) (pc : Nat) :
    sigNext .whole s ⟨0, -1, pc + 2⟩ = some (s.get? 1, ⟨1, 1, pc + 1⟩) := by
  simp [sigNext, csub, usizeCast]

theorem sigNext_whole_step_down (s : List ℚ) (i pc : Nat) (h1 : 1 ≤ s.length) :
    sigNext .whole s ⟨i + 1, -1, pc⟩ = some (s.get? i, ⟨i, -1, pc⟩) := by
  have e : ((i + 1 : Nat) : Int) + (-1) = ((i : Nat) : Int) := by push_cast; ring
  simp [sigNext, csub_pos s.length 1 h1, e, usizeCast_nat]

theorem sigNext_whole_step_up (s : List ℚ) (i : Nat) (h1 : 1 ≤ s.length)
    (hne : i ≠ s.length - 1) :
    sigNext .whole s ⟨i, 1, 1⟩ = some (s.get? (i + 1), ⟨i + 1, 1, 1⟩) := by
  simp [sigNext, csub_pos s.length 1 h1, hne, usizeCast_add_one]

theorem sigNext_whole_flip (s : List ℚ) (h2 : 2 ≤ s.length) :
    sigNext .whole s ⟨s.length - 1, 1, 1⟩ =
      some (s.get? (s.length - 2), ⟨s.length - 2, -1, 1⟩) := by
  have e : usizeCast (((s.length - 1 : Nat) : Int) + (-1)) = s.length - 2 := by
    have e2 : ((s.length - 1 : Nat) : Int) + (-1) = ((s.length - 2 : Nat) : Int) := by omega
    rw [e2, usizeCast_nat]
  simp [sigNext, csub_pos s.length 1 (by omega), e]

theorem sigCollect_whole_down (s : List ℚ) :
    ∀ i fuel, i ≤ s.length → i + 1 ≤ fuel →
      sigCollect .whole s fuel ⟨i, -1, 1⟩ = some ((s.take i).reverse) := by
  intro i
  induction i with
  | zero =>
    intro fuel _ hfuel
    obtain ⟨f, rfl⟩ : ∃ f, fuel = f + 1 := ⟨fuel - 1, by omega⟩
    rw [sigCollect_stop f (sigNext_whole_end s)]
    simp
  | succ i ih =>
    intro fuel hi hfuel
    obtain ⟨f, rfl⟩ : ∃ f, fuel = f + 1 := ⟨fuel - 1, by omega⟩
    obtain ⟨v, hv⟩ : ∃ v, s.get? i = some v := ⟨_, List.get?_eq_get (by omega)⟩
    have hnext := sigNext_whole_step_down s i 1 (by omega)
    rw [hv] at hnext
    rw [sigCollect_cons f hnext, ih f (by omega) (by omega)]
    obtain ⟨hlt, hgv⟩ := lookup_getElem hv
    simp [List.take_succ, List.getElem?_eq_getElem hlt, hgv]

theorem sigCollect_whole_up (s : List ℚ) (h2 : 2 ≤ s.length) :
    ∀ k i fuel, i + k + 1 = s.length → k + s.length + 2 ≤ fuel →
      sigCollect .whole s fuel ⟨i, 1, 1⟩ =
        some (s.drop (i + 1) ++ (s.take (s.length - 1)).reverse) := by
  intro k
  induction k with
  | zero =>
    intro i fuel hi hfuel
    obtain ⟨f, rfl⟩ : ∃ f, fuel = f + 1 := ⟨fuel - 1, by omega⟩
    have hlast : i = s.length - 1 := by omega
    subst hlast
    obtain ⟨v, hv⟩ : ∃ v, s.get? (s.length - 2) = some v := ⟨_, List.get?_eq_get (by omega)⟩
    have hnext := sigNext_whole_flip s h2
    rw [hv] at hnext
    rw [sigCollect_cons f hnext, sigCollect_whole_down s (s.length - 2) f (by omega) (by omega)]
    obtain ⟨hlt, hgv⟩ := lookup_getElem hv
    have htake : s.take (s.length - 2 + 1) = s.take (s.length - 2) ++ [v] := by
      rw [List.take_succ, List.getElem?_eq_getElem hlt, hgv]
      rfl
    have htake2 : s.take (s.length - 1) = s.take (s.length - 2) ++ [v] := by
      rw [show s.length - 1 = s.length - 2 + 1 from by omega, htake]
    rw [List.drop_eq_nil_of_le (by omega), htake2]
    simp
  | succ k ih =>
    intro i fuel hi hfuel
    obtain ⟨f, rfl⟩ : ∃ f, fuel = f + 1 := ⟨fuel - 1, by omega⟩
    obtain ⟨v, hv⟩ : ∃ v, s.get? (i + 1) = some v := ⟨_, List.get?_eq_get (by omega)⟩
    have hnext := sigNext_whole_step_up s i (by omega) (by omega)
    rw [hv] at hnext
    rw [sigCollect_cons f hnext, ih (i + 1) f (by omega) (by omega)]
    obtain ⟨hlt, hgv⟩ := lookup_getElem hv
    have hdrop : s.drop (i + 1) = v :: s.drop (i + 2) := by
      rw [List.drop_eq_getElem_cons hlt, hgv]
    rw [hdrop]
    simp

theorem signalYields_whole_eq (s : List ℚ) (h : s ≠ []) :
    signalYields .whole s = some (s ++ s.dropLast.reverse) := by
  obtain ⟨a, t, rfl⟩ : ∃ a t, s = a :: t := by
    cases s with
    | nil => exact absurd rfl h
    | cons a t => exact ⟨a, t, rfl⟩
  cases t with
  | nil =>
    unfold signalYields
    rw [show 2 * ([a] : List ℚ).length + 3 = ((2 * ([a] : List ℚ).length + 1) + 1) + 1 from rfl]
    have hn1 : sigNext .whole [a] (SignalIter.initFor .whole) = some (some a, ⟨0, -1, 2⟩) := by
      simp [sigNext, SignalIter.initFor, csub, usizeCast]
    have hn2 : sigNext .whole [a] (⟨0, -1, 2⟩ : SignalIter) = some (none, ⟨1, 1, 1⟩) := by
      have hr := sigNext_whole_restart [a] 0
      simpa using hr
    rw [sigCollect_cons _ hn1, sigCollect_stop _ hn2]
    simp
  | cons b t2 =>
    have hlen : 2 ≤ (a :: b :: t2).length := by simp
    unfold signalYields
    rw [show 2 * (a :: b :: t2).length + 3 =
      ((2 * (a :: b :: t2).length + 1) + 1) + 1 from rfl]
    have hn1 : sigNext .whole (a :: b :: t2) (SignalIter.initFor .whole) =
        some (some a, ⟨0, -1, 2⟩) := by
      have hd := sigNext_whole_step_down (a :: b :: t2) 0 2 (by omega)
      simpa [SignalIter.initFor] using hd
    have hn2 : sigNext .whole (a :: b :: t2) (⟨0, -1, 2⟩ : SignalIter) =
        some (some b, ⟨1, 1, 1⟩) := by
      have hr := sigNext_whole_restart (a :: b :: t2) 0
      simpa using hr
    rw [sigCollect_cons _ hn1, sigCollect_cons _ hn2]
    rw [sigCollect_whole_up (a :: b :: t2) hlen ((a :: b :: t2).length - 2) 1
      (2 * (a :: b :: t2).length + 1) (by omega) (by omega)]
    simp [List.dropLast_eq_take]

theorem signalYields_whole_nil : signalYields .whole [] = none := by
  unfold signalYields
  rw [show 2 * ([] : List ℚ).length + 3 = (2 * ([] : List ℚ).length + 2) + 1 from rfl]
  have hnext : sigNext .whole ([] : List ℚ) (SignalIter.initFor .whole) = none := by
    simp [sigNext, SignalIter.initFor, csub]
  simp [sigCollect, hnext]

theorem filtCollect_stop {ext : FilterExtension} (fuel : Nat) {st st1 : FilterIter}
    (h : filtNext ext st = some (none, st1)) :
    filtCollect ext (fuel + 1) st = some [] := by
  simp [filtCollect, h]

theorem filtCollect_cons {ext : FilterExtension} (fuel : Nat) {st st1 : FilterIter} {v : ℚ}
    (h : filtNext ext st = some (some v, st1)) :
    filtCollect ext (fuel + 1) st = (filtCollect ext fuel st1).map (fun l => v :: l) := by
  simp [filtCollect, h]

theorem filtCollect_len_aux (ext : FilterExtension) (c : List ℚ) (hp : Bool) (off : Nat)
    (hparts : ext.parts = (c, hp, off)) (lm : Nat) (hlm : csub c.length off = some lm)
    (hlmle : lm ≤ c.length) (p : Nat) (hple : p ≤ lm + c.length) :
    ∀ k i fuel, i + k = p → k + 1 ≤ fuel →
      ∃ l, filtCollect ext fuel ⟨i, p⟩ = some l ∧ l.length = k := by
  intro k
  induction k with
  | zero =>
    intro i fuel hik hfuel
    obtain ⟨f, rfl⟩ : ∃ f, fuel = f + 1 := ⟨fuel - 1, by omega⟩
    have hip : i = p := by omega
    subst hip
    have hnext : filtNext ext ⟨i, i⟩ = some (none, ⟨i + 1, i⟩) := by
      simp [filtNext, hparts, hlm]
    rw [filtCollect_stop f hnext]
    exact ⟨[], rfl, rfl⟩
  | succ k ih =>
    intro i fuel hik hfuel
    obtain ⟨f, rfl⟩ : ∃ f, fuel = f + 1 := ⟨fuel - 1, by omega⟩
    have hip : i < p := by omega
    by_cases hbr : i < lm
    · obtain ⟨v, hv⟩ : ∃ v, c.get? (c.length - i - 1) = some v :=
        ⟨_, List.get?_eq_get (by omega)⟩
      rw [List.get?_eq_getElem?] at hv
      have hnext : filtNext ext ⟨i, p⟩ =
          some (some (if hp = true then -v else v), ⟨i + 1, p⟩) := by
        simp [filtNext, hparts, hlm, hip.ne, hbr, csub_pos c.length i (by omega),
          csub_pos (c.length - i) 1 (by omega), hv]
      obtain ⟨l, hl, hlen⟩ := ih (i + 1) f (by omega) (by omega)
      refine ⟨(if hp = true then -v else v) :: l, ?_, by simp [hlen]⟩
      rw [filtCollect_cons f hnext, hl]
      rfl
    · obtain ⟨v, hv⟩ : ∃ v, c.get? (i - lm) = some v := ⟨_, List.get?_eq_get (by omega)⟩
      rw [List.get?_eq_getElem?] at hv
      have hnext : filtNext ext ⟨i, p⟩ = some (some v, ⟨i + 1, p⟩) := by
        simp [filtNext, hparts, hlm, hip.ne, hbr, hip, csub_pos i lm (by omega), hv]
      obtain ⟨l, hl, hlen⟩ := ih (i + 1) f (by omega) (by omega)
      refine ⟨v :: l, ?_, by simp [hlen]⟩
      rw [filtCollect_cons f hnext, hl]
      rfl

theorem coefficientsList_WSS (c : List ℚ) (h : c ≠ []) :
    ∃ l, (Filter.WSS c).coefficientsList = some l ∧ l.length = 2 * c.length - 1 := by
  have hlen : 1 ≤ c.length := List.length_pos.mpr h
  have hper : (Filter.WSS c).filterExtension.period = some (c.length * 2 - 1) := by
    simp [Filter.filterExtension, FilterExtension.period, csub_pos (c.length * 2) 1 (by omega)]
  obtain ⟨l, hl, hlen2⟩ := filtCollect_len_aux (Filter.WSS c).filterExtension c false 1 rfl
    (c.length - 1) (csub_pos c.length 1 hlen) (by omega) (c.length * 2 - 1) (by omega)
    (c.length * 2 - 1) 0 (c.length * 2 - 1 + 1) (by omega) (by omega)
  refine ⟨l, ?_, by omega⟩
  simp only [Filter.coefficientsList, hper]
  exact hl

theorem coefficientsList_WSA (c : List ℚ) (h : c ≠ []) :
    ∃ l, (Filter.WSA c).coefficientsList = some l ∧ l.length = 2 * c.length - 1 := by
  have hlen : 1 ≤ c.length := List.length_pos.mpr h
  have hper : (Filter.WSA c).filterExtension.period = some (c.length * 2 - 1) := by
    simp [Filter.filterExtension, FilterExtension.period, csub_pos (c.length * 2) 1 (by omega)]
  obtain ⟨l, hl, hlen2⟩ := filtCollect_len_aux (Filter.WSA c).filterExtension c true 1 rfl
    (c.length - 1) (csub_pos c.length 1 hlen) (by omega) (c.length * 2 - 1) (by omega)
    (c.length * 2 - 1) 0 (c.length * 2 - 1 + 1) (by omega) (by omega)
  refine ⟨l, ?_, by omega⟩
  simp only [Filter.coefficientsList, hper]
  exact hl

theorem coefficientsList_HSS (c : List ℚ) :
    ∃ l, (Filter.HSS c).coefficientsList = some l ∧ l.length = 2 * c.length := by
  have hper : (Filter.HSS c).filterExtension.period = some (c.length * 2) := by
    simp [Filter.filterExtension, FilterExtension.period]
  obtain ⟨l, hl, hlen2⟩ := filtCollect_len_aux (Filter.HSS c).filterExtension c false 0 rfl
    (c.length - 0) (csub_pos c.length 0 (by omega)) (by omega) (c.length * 2) (by omega)
    (c.length * 2) 0 (c.length * 2 + 1) (by omega) (by omega)
  refine ⟨l, ?_, by omega⟩
  simp only [Filter.coefficientsList, hper]
  exact hl

theorem coefficientsList_HSA (c : List ℚ) :
    ∃ l, (Filter.HSA c).coefficientsList = some l ∧ l.length = 2 * c.length := by
  have hper : (Filter.HSA c).filterExtension.period = some (c.length * 2) := by
    simp [Filter.filterExtension, FilterExtension.period]
  obtain ⟨l, hl, hlen2⟩ := filtCollect_len_aux (Filter.HSA c).filterExtension c true 0 rfl
    (c.length - 0) (csub_pos c.length 0 (by omega)) (by omega) (c.length * 2) (by omega)
    (c.length * 2) 0 (c.length * 2 + 1) (by omega) (by omega)
  refine ⟨l, ?_, by omega⟩
  simp only [Filter.coefficientsList, hper]
  exact hl

/-- C8: the symmetry-extended coefficient sequence of a whole-sample
filter has exactly twice the coefficient count minus one entries, that of
a half-sample filter exactly twice the coefficient count, and the two
antisymmetric examples extend exactly as stated. -/
theorem c8_filter_extension_lengths :
    (∀ c : List ℚ, c ≠ [] →
      ∃ l, (Filter.WSS c).coefficientsList = some l ∧ l.length = 2 * c.length - 1) ∧
    (∀ c : List ℚ, c ≠ [] →
      ∃ l, (Filter.WSA c).coefficientsList = some l ∧ l.length = 2 * c.length - 1) ∧
    (∀ c : List ℚ, ∃ l, (Filter.HSS c).coefficientsList = some l ∧ l.length = 2 * c.length) ∧
    (∀ c : List ℚ, ∃ l, (Filter.HSA c).coefficientsList = some l ∧ l.length = 2 * c.length) ∧
    (Filter.WSA [3, 2, 1]).coefficientsList = some [-1, -2, 3, 2, 1] ∧
    (Filter.HSA [3, 2, 1]).coefficientsList = some [-1, -2, -3, 3, 2, 1] :=
  ⟨coefficientsList_WSS, coefficientsList_WSA, coefficientsList_HSS, coefficientsList_HSA,
    by with_unfolding_all decide, by with_unfolding_all decide⟩

/-- C8, witness: the general length statements instantiated at concrete
filters with two coefficients. -/
theorem c8_filter_extension_lengths_witness :
    (∃ l, (Filter.WSS [5, 6]).coefficientsList = some l ∧
      l.length = 2 * ([5, 6] : List ℚ).length - 1) ∧
    (∃ l, (Filter.HSA [5, 6]).coefficientsList = some l ∧
      l.length = 2 * ([5, 6] : List ℚ).length) :=
  ⟨c8_filter_extension_lengths.1 [5, 6] (by simp),
    c8_filter_extension_lengths.2.2.2.1 [5, 6]⟩

theorem get_lookup_map_zero (l : List ℚ) (g : ℚ → List ℚ) (v : ℚ)
    (h : l.get? 0 = some v) : (l.map g).get? 0 = some (g v) := by
  rw [List.get?_map, h]
  rfl

theorem apply_some_length_WSS (c : List ℚ) (s : List ℚ) (L : Nat)
    (hs : s ≠ []) (hL : (Filter.WSS c).len = some L) (h2 : 2 ≤ L) :
    ∃ v, (Filter.WSS c).apply s = some v ∧ v.length = s.length := by
  have hslen : 1 ≤ s.length := List.length_pos.mpr hs
  have hc1 : 1 ≤ c.length := by
    by_contra hc0
    have hc00 : c.length = 0 := by omega
    simp [Filter.len, hc00, csub] at hL
  have hLval : L = c.length * 2 - 1 := by
    simp [Filter.len, csub_pos (c.length * 2) 1 (by omega)] at hL
    omega
  have hM : 2 ≤ c.length := by omega
  obtain ⟨coeffs, hcoeffs, hclen⟩ := coefficientsList_WSS c (by
    intro h0
    rw [h0] at hc1
    simp at hc1)
  have hext := signalYields_whole_eq s hs
  obtain ⟨s0, hs0⟩ : ∃ v, s.get? 0 = some v := ⟨_, List.get?_eq_get (by omega)⟩
  have hext0 : (s ++ s.dropLast.reverse).get? 0 = some s0 := by
    rw [List.get?_eq_getElem?, List.getElem?_append_left (by omega)]
    rw [List.get?_eq_getElem?] at hs0
    exact hs0
  have hstk0 := get_lookup_map_zero (s ++ s.dropLast.reverse)
    (fun t => coeffs.map (fun cc => cc * t)) s0 hext0
  unfold Filter.apply
  simp only [hcoeffs, hext, hstk0]
  have hcs1 : csub (s.length + (s.length - 1) + (2 * c.length - 1)) 1 =
      some (s.length + (s.length - 1) + (2 * c.length - 1) - 1) := csub_pos _ 1 (by omega)
  have hcs2 : csub (L / 2) 1 = some (L / 2 - 1) := csub_pos _ 1 (by omega)
  simp only [List.length_map, List.length_append, List.length_reverse, List.length_dropLast,
    hclen, hcs1, hL, hcs2]
  refine ⟨_, rfl, ?_⟩
  simp only [List.length_map, List.length_range']
  omega

theorem apply_some_length_WSA (c : List ℚ) (s : List ℚ) (L : Nat)
    (hs : s ≠ []) (hL : (Filter.WSA c).len = some L) (h2 : 2 ≤ L) :
    ∃ v, (Filter.WSA c).apply s = some v ∧ v.length = s.length := by
  have hslen : 1 ≤ s.length := List.length_pos.mpr hs
  have hc1 : 1 ≤ c.length := by
    by_contra hc0
    have hc00 : c.length = 0 := by omega
    simp [Filter.len, hc00, csub] at hL
  have hLval : L = c.length * 2 - 1 := by
    simp [Filter.len, csub_pos (c.length * 2) 1 (by omega)] at hL
    omega
  have hM : 2 ≤ c.length := by omega
  obtain ⟨coeffs, hcoeffs, hclen⟩ := coefficientsList_WSA c (by
    intro h0
    rw [h0] at hc1
    simp at hc1)
  have hext := signalYields_whole_eq s hs
  obtain ⟨s0, hs0⟩ : ∃ v, s.get? 0 = some v := ⟨_, List.get?_eq_get (by omega)⟩
  have hext0 : (s ++ s.dropLast.reverse).get? 0 = some s0 := by
    rw [List.get?_eq_getElem?, List.getElem?_append_left (by omega)]
    rw [List.get?_eq_getElem?] at hs0
    exact hs0
  have hstk0 := get_lookup_map_zero (s ++ s.dropLast.reverse)
    (fun t => coeffs.map (fun cc => cc * t)) s0 hext0
  unfold Filter.apply
  simp only [hcoeffs, hext, hstk0]
  have hcs1 : csub (s.length + (s.length - 1) + (2 * c.length - 1)) 1 =
      some (s.length + (s.length - 1) + (2 * c.length - 1) - 1) := csub_pos _ 1 (by omega)
  have hcs2 : csub (L / 2) 1 = some (L / 2 - 1) := csub_pos _ 1 (by omega)
  simp only [List.length_map, List.length_append, List.length_reverse, List.length_dropLast,
    hclen, hcs1, hL, hcs2]
  refine ⟨_, rfl, ?_⟩
  simp only [List.length_map, List.length_range']
  omega

theorem apply_some_length_HSS (c : List ℚ) (s : List ℚ) (L : Nat)
    (hs : s ≠ []) (hL : (Filter.HSS c).len = some L) (h2 : 2 ≤ L) :
    ∃ v, (Filter.HSS c).apply s = some v ∧ v.length = s.length := by
  have hslen : 1 ≤ s.length := List.length_pos.mpr hs
  have hLval : L = c.length * 2 := by
    simp [Filter.len] at hL
    omega
  have hM : 1 ≤ c.length := by omega
  obtain ⟨coeffs, hcoeffs, hclen⟩ := coefficientsList_HSS c
  have hext := signalYields_half_eq s hs
  obtain ⟨s0, hs0⟩ : ∃ v, s.get? 0 = some v := ⟨_, List.get?_eq_get (by omega)⟩
  have hext0 : (s ++ s.reverse).get? 0 = some s0 := by
    rw [List.get?_eq_getElem?, List.getElem?_append_left (by omega)]
    rw [List.get?_eq_getElem?] at hs0
    exact hs0
  have hstk0 := get_lookup_map_zero (s ++ s.reverse)
    (fun t => coeffs.map (fun cc => cc * t)) s0 hext0
  unfold Filter.apply
  simp only [hcoeffs, hext, hstk0]
  have hcs1 : csub (s.length + s.length + 2 * c.length) 1 =
      some (s.length + s.length + 2 * c.length - 1) := csub_pos _ 1 (by omega)
  have hcs2 : csub (L / 2) 1 = some (L / 2 - 1) := csub_pos _ 1 (by omega)
  simp only [List.length_map, List.length_append, List.length_reverse, hclen, hcs1, hL, hcs2]
  refine ⟨_, rfl, ?_⟩
  simp only [List.length_map, List.length_range']
  omega

theorem apply_some_length_HSA (c : List ℚ) (s : List ℚ) (L : Nat)
    (hs : s ≠ []) (hL : (Filter.HSA c).len = some L) (h2 : 2 ≤ L) :
    ∃ v, (Filter.HSA c).apply s = some v ∧ v.length = s.length := by
  have hslen : 1 ≤ s.length := List.length_pos.mpr hs
  have hLval : L = c.length * 2 := by
    simp [Filter.len] at hL
    omega
  have hM : 1 ≤ c.length := by omega
  obtain ⟨coeffs, hcoeffs, hclen⟩ := coefficientsList_HSA c
  have hext := signalYields_half_eq s hs
  obtain ⟨s0, hs0⟩ : ∃ v, s.get? 0 = some v := ⟨_, List.get?_eq_get (by omega)⟩
  have hext0 : (s ++ s.reverse).get? 0 = some s0 := by
    rw [List.get?_eq_getElem?, List.getElem?_append_left (by omega)]
    rw [List.get?_eq_getElem?] at hs0
    exact hs0
  have hstk0 := get_lookup_map_zero (s ++ s.reverse)
    (fun t => coeffs.map (fun cc => cc * t)) s0 hext0
  unfold Filter.apply
  simp only [hcoeffs, hext, hstk0]
  have hcs1 : csub (s.length + s.length + 2 * c.length) 1 =
      some (s.length + s.length + 2 * c.length - 1) := csub_pos _ 1 (by omega)
  have hcs2 : csub (L / 2) 1 = some (L / 2 - 1) := csub_pos _ 1 (by omega)
  simp only [List.length_map, List.length_append, List.length_reverse, hclen, hcs1, hL, hcs2]
  refine ⟨_, rfl, ?_⟩
  simp only [List.length_map, List.length_range']
  omega

theorem apply_some_length (f : Filter) (s : List ℚ) (L : Nat)
    (hs : s ≠ []) (hL : f.len = some L) (h2 : 2 ≤ L) :
    ∃ v, f.apply s = some v ∧ v.length = s.length := by
  cases f with
  | WSS c => exact apply_some_length_WSS c s L hs hL h2
  | WSA c => exact apply_some_length_WSA c s L hs hL h2
  | HSS c => exact apply_some_length_HSS c s L hs hL h2
  | HSA c => exact apply_some_length_HSA c s L hs hL h2

theorem apply_nil (f : Filter) : f.apply [] = none := by
  cases f with
  | WSS c =>
    unfold Filter.apply
    cases hc : (Filter.WSS c).coefficientsList with
    | none => simp
    | some coeffs => simp [signalYields_whole_nil]
  | WSA c =>
    unfold Filter.apply
    cases hc : (Filter.WSA c).coefficientsList with
    | none => simp
    | some coeffs => simp [signalYields_whole_nil]
  | HSS c =>
    unfold Filter.apply
    cases hc : (Filter.HSS c).coefficientsList with
    | none => simp
    | some coeffs => simp [signalYields_half_nil]
  | HSA c =>
    unfold Filter.apply
    cases hc : (Filter.HSA c).coefficientsList with
    | none => simp
    | some coeffs => simp [signalYields_half_nil]

theorem apply_small_len (f : Filter) (s : List ℚ) (L : Nat)
    (hL : f.len = some L) (hsmall : L < 2) : f.apply s = none := by
  cases f with
  | WSS c =>
    cases hc : (Filter.WSS c).coefficientsList with
    | none =>
      unfold Filter.apply
      simp only [hc]
    | some coeffs =>
      cases hext : signalYields .whole s with
      | none =>
        unfold Filter.apply
        simp only [hc, hext]
      | some ext =>
        cases hstk : (ext.map (fun t => coeffs.map (fun cc => cc * t))).get? 0 with
        | none =>
          unfold Filter.apply
          simp only [hc, hext, hstk]
        | some col0 =>
          have hpos : 0 < ext.length := by
            obtain ⟨hlt, _⟩ := List.get?_eq_some.mp hstk
            simpa using hlt
          have hcs : csub ((ext.map (fun t => coeffs.map (fun cc => cc * t))).length +
              col0.length) 1 =
              some ((ext.map (fun t => coeffs.map (fun cc => cc * t))).length +
                col0.length - 1) := by
            apply csub_pos
            simp
            omega
          have hL2 : L / 2 = 0 := by omega
          have hb : csub (L / 2) 1 = none := by
            rw [hL2]
            simp [csub]
          unfold Filter.apply
          simp only [hc, hext, hstk, hcs, hL, hb]
  | HSS c =>
    cases hc : (Filter.HSS c).coefficientsList with
    | none =>
      unfold Filter.apply
      simp only [hc]
    | some coeffs =>
      cases hext : signalYields .half s with
      | none =>
        unfold Filter.apply
        simp only [hc, hext]
      | some ext =>
        cases hstk : (ext.map (fun t => coeffs.map (fun cc => cc * t))).get? 0 with
        | none =>
          unfold Filter.apply
          simp only [hc, hext, hstk]
        | some col0 =>
          have hpos : 0 < ext.length := by
            obtain ⟨hlt, _⟩ := List.get?_eq_some.mp hstk
            simpa using hlt
          have hcs : csub ((ext.map (fun t => coeffs.map (fun cc => cc * t))).length +
              col0.length) 1 =
              some ((ext.map (fun t => coeffs.map (fun cc => cc * t))).length +
                col0.length - 1) := by
            apply csub_pos
            simp
            omega
          have hL2 : L / 2 = 0 := by omega
          have hb : csub (L / 2) 1 = none := by
            rw [hL2]
            simp [csub]
          unfold Filter.apply
          simp only [hc, hext, hstk, hcs, hL, hb]
  | WSA c =>
    cases hc : (Filter.WSA c).coefficientsList with
    | none =>
      unfold Filter.apply
      simp only [hc]
    | some coeffs =>
      cases hext : signalYields .whole s with
      | none =>
        unfold Filter.apply
        simp only [hc, hext]
      | some ext =>
        cases hstk : (ext.map (fun t => coeffs.map (fun cc => cc * t))).get? 0 with
        | none =>
          unfold Filter.apply
          simp only [hc, hext, hstk]
        | some col0 =>
          have hpos : 0 < ext.length := by
            obtain ⟨hlt, _⟩ := List.get?_eq_some.mp hstk
            simpa using hlt
          have hcs : csub ((ext.map (fun t => coeffs.map (fun cc => cc * t))).length +
              col0.length) 1 =
              some ((ext.map (fun t => coeffs.map (fun cc => cc * t))).length +
                col0.length - 1) := by
            apply csub_pos
            simp
            omega
          have hL2 : L / 2 = 0 := by omega
          have hb : csub (L / 2) 1 = none := by
            rw [hL2]
            simp [csub]
          unfold Filter.apply
          simp only [hc, hext, hstk, hcs, hL, hb]
  | HSA c =>
    cases hc : (Filter.HSA c).coefficientsList with
    | none =>
      unfold Filter.apply
      simp only [hc]
    | some coeffs =>
      cases hext : signalYields .half s with
      | none =>
        unfold Filter.apply
        simp only [hc, hext]
      | some ext =>
        cases hstk : (ext.map (fun t => coeffs.map (fun cc => cc * t))).get? 0 with
        | none =>
          unfold Filter.apply
          simp only [hc, hext, hstk]
        | some col0 =>
          have hpos : 0 < ext.length := by
            obtain ⟨hlt, _⟩ := List.get?_eq_some.mp hstk
            simpa using hlt
          have hcs : csub ((ext.map (fun t => coeffs.map (fun cc => cc * t))).length +
              col0.length) 1 =
              some ((ext.map (fun t => coeffs.map (fun cc => cc * t))).length +
                col0.length - 1) := by
            apply csub_pos
            simp
            omega
          have hL2 : L / 2 = 0 := by omega
          have hb : csub (L / 2) 1 = none := by
            rw [hL2]
            simp [csub]
          unfold Filter.apply
          simp only [hc, hext, hstk, hcs, hL, hb]

theorem apply_len_none (f : Filter) (s : List ℚ) (h : f.len = none) : f.apply s = none := by
  cases f with
  | WSS c =>
    have hc : c.length = 0 := by
      by_contra hcc
      simp [Filter.len, csub_pos (c.length * 2) 1 (by omega)] at h
    have hcl : (Filter.WSS c).coefficientsList = none := by
      simp [Filter.coefficientsList, Filter.filterExtension, FilterExtension.period, hc, csub]
    unfold Filter.apply
    simp only [hcl]
  | WSA c =>
    have hc : c.length = 0 := by
      by_contra hcc
      simp [Filter.len, csub_pos (c.length * 2) 1 (by omega)] at h
    have hcl : (Filter.WSA c).coefficientsList = none := by
      simp [Filter.coefficientsList, Filter.filterExtension, FilterExtension.period, hc, csub]
    unfold Filter.apply
    simp only [hcl]
  | HSS c => simp [Filter.len] at h
  | HSA c => simp [Filter.len] at h

theorem len_invert (f : Filter) : f.invert.len = f.len := by
  cases f with
  | WSS c => simp [Filter.invert, Filter.len, invert_even_negative_length]
  | WSA c => simp [Filter.invert, Filter.len, invert_odd_negative_length]
  | HSS c => simp [Filter.invert, Filter.len, invert_even_negative_length]
  | HSA c => simp [Filter.invert, Filter.len, invert_odd_negative_length]

theorem downsample_length : ∀ l : List ℚ, (downsample l).length = (l.length + 1) / 2
  | [] => rfl
  | [_] => by simp [downsample]
  | a :: b :: rest => by
    have ih := downsample_length rest
    simp [downsample, ih]
    omega

theorem upsample_length : ∀ l : List ℚ, (upsample l).length = 2 * l.length
  | [] => rfl
  | a :: rest => by
    have ih := upsample_length rest
    simp [upsample, ih]
    omega

/-- C10: Filter::apply is abort-free exactly when the signal is nonempty
and the mirrored filter length is defined and at least two; under that
precondition it returns a well-defined vector, and outside it some usize
subtraction or indexing aborts. -/
theorem c10_apply_abort_iff (f : Filter) (s : List ℚ) :
    (f.apply s).isSome ↔ (s ≠ [] ∧ ∃ L, f.len = some L ∧ 2 ≤ L) := by
  constructor
  · intro h
    by_cases hs : s = []
    · subst hs
      rw [apply_nil] at h
      simp at h
    · refine ⟨hs, ?_⟩
      cases hL : f.len with
      | none =>
        rw [apply_len_none f s hL] at h
        simp at h
      | some L =>
        by_cases h2 : 2 ≤ L
        · exact ⟨L, rfl, h2⟩
        · rw [apply_small_len f s L hL (by omega)] at h
          simp at h
  · rintro ⟨hs, L, hL, h2⟩
    obtain ⟨v, hv, _⟩ := apply_some_length f s L hs hL h2
    simp [hv]

/-- C10, witness: the precondition and the abort-free evaluation at a
concrete half-sample filter and two-sample signal. -/
theorem c10_apply_abort_iff_witness :
    (((Filter.HSS [1]).apply [1, 2]).isSome : Prop) :=
  (c10_apply_abort_iff (Filter.HSS [1]) [1, 2]).mpr
    ⟨by simp, 2, by with_unfolding_all decide, by omega⟩

/-- C2, amended: for every complementary filter pair and every signal for
which the pipeline runs to completion - the signal nonempty and both
mirrored filter lengths defined and at least two, restrictions the
counterexample forces because analysis_1d aborts on an empty signal and
aborts for complementary pairs containing a one-coefficient whole-sample
filter - the reconstruction of the two analysis subbands is defined and
has length twice the rounded-up half of the signal length; this equals
the signal length exactly when the signal length is even (and exceeds it
by one when odd). -/
theorem c2_roundtrip_length_amended (h0 h1 : Filter) (s : List ℚ) (L0 L1 : Nat)
    (_hcomp : isComplementary h0 h1 = true)
    (hL0 : h0.len = some L0) (h20 : 2 ≤ L0) (hL1 : h1.len = some L1) (h21 : 2 ≤ L1)
    (hs : s ≠ []) :
    ∃ a0 a1 r,
      (TwoChannelSubbandCoder.new h0 h1).analysis_1d s = some (a0, a1) ∧
      (TwoChannelSubbandCoder.new h0 h1).synthesis_1d a0 a1 = some r ∧
      r.length = 2 * ((s.length + 1) / 2) ∧
      (s.length % 2 = 0 → r.length = s.length) := by
  have hslen : 1 ≤ s.length := List.length_pos.mpr hs
  obtain ⟨v0, hv0, hlen0⟩ := apply_some_length h0 s L0 hs hL0 h20
  obtain ⟨v1, hv1, hlen1⟩ := apply_some_length h1 s L1 hs hL1 h21
  have hana : (TwoChannelSubbandCoder.new h0 h1).analysis_1d s =
      some (downsample v0, downsample v1) := by
    unfold TwoChannelSubbandCoder.analysis_1d
    simp [TwoChannelSubbandCoder.new, hv0, hv1]
  have hd0 : (downsample v0).length = (s.length + 1) / 2 := by
    rw [downsample_length, hlen0]
  have hd1 : (downsample v1).length = (s.length + 1) / 2 := by
    rw [downsample_length, hlen1]
  have hne0 : upsample (downsample v0) ≠ [] := by
    intro hnil
    have hu := upsample_length (downsample v0)
    rw [hnil, hd0] at hu
    simp at hu
    omega
  have hne1 : upsample (downsample v1) ≠ [] := by
    intro hnil
    have hu := upsample_length (downsample v1)
    rw [hnil, hd1] at hu
    simp at hu
    omega
  have hfl : (h1.invert).len = some L1 := by
    rw [len_invert]
    exact hL1
  have hfh : (h0.invert).len = some L0 := by
    rw [len_invert]
    exact hL0
  obtain ⟨x0, hx0, hxlen0⟩ :=
    apply_some_length (h1.invert) (upsample (downsample v0)) L1 hne0 hfl h21
  obtain ⟨x1, hx1, hxlen1⟩ :=
    apply_some_length (h0.invert) (upsample (downsample v1)) L0 hne1 hfh h20
  have hsyn : (TwoChannelSubbandCoder.new h0 h1).synthesis_1d (downsample v0) (downsample v1) =
      some (List.zipWith (fun u v => u + v) x0 x1) := by
    unfold TwoChannelSubbandCoder.synthesis_1d
    simp [TwoChannelSubbandCoder.new, hx0, hx1]
  have hlenfinal : (List.zipWith (fun u v => u + v) x0 x1).length =
      2 * ((s.length + 1) / 2) := by
    rw [List.length_zipWith, hxlen0, hxlen1, upsample_length, upsample_length, hd0, hd1]
    simp
  exact ⟨downsample v0, downsample v1, List.zipWith (fun u v => u + v) x0 x1,
    hana, hsyn, hlenfinal, fun heven => by rw [hlenfinal]; omega⟩

/-- C2, witness: the amended statement instantiated at the complementary
half-sample pair and the odd-length three-sample signal, where the
reconstruction length is four. -/
theorem c2_roundtrip_length_amended_witness :
    ∃ a0 a1 r,
      (TwoChannelSubbandCoder.new (Filter.HSS [1]) (Filter.HSA [1/2])).analysis_1d
        [1, 2, 3] = some (a0, a1) ∧
      (TwoChannelSubbandCoder.new (Filter.HSS [1]) (Filter.HSA [1/2])).synthesis_1d a0 a1 =
        some r ∧
      r.length = 2 * ((([1, 2, 3] : List ℚ).length + 1) / 2) ∧
      (([1, 2, 3] : List ℚ).length % 2 = 0 → r.length = ([1, 2, 3] : List ℚ).length) :=
  c2_roundtrip_length_amended (Filter.HSS [1]) (Filter.HSA [1/2]) [1, 2, 3] 2 2
    (by with_unfolding_all decide) (by with_unfolding_all decide) (by omega)
    (by with_unfolding_all decide) (by omega) (by simp)

/-- C7, amended: for every nonempty signal the swt extension iterator is
finite, not infinite: collected from the start it yields exactly the
signal followed by its mirrored second period (the full reversal for the
half-sample kind, the reversal without the last sample for the
whole-sample kind) and then exhausts; every yielded value is an element
of the underlying signal. -/
theorem c7_extension_yields_two_periods (s : List ℚ) (h : s ≠ []) :
    signalYields .half s = some (s ++ s.reverse) ∧
    signalYields .whole s = some (s ++ s.dropLast.reverse) ∧
    (∀ x ∈ s ++ s.reverse, x ∈ s) ∧
    (∀ x ∈ s ++ s.dropLast.reverse, x ∈ s) := by
  refine ⟨signalYields_half_eq s h, signalYields_whole_eq s h, ?_, ?_⟩
  · intro x hx
    rcases List.mem_append.mp hx with hx | hx
    · exact hx
    · exact List.mem_reverse.mp hx
  · intro x hx
    rcases List.mem_append.mp hx with hx | hx
    · exact hx
    · exact List.dropLast_subset s (List.mem_reverse.mp hx)

/-- C7, witness: the amended statement at the four-sample signal with the
collected sequences evaluated. -/
theorem c7_extension_yields_two_periods_witness :
    signalYields .half [1, 2, 3, 4] = some [1, 2, 3, 4, 4, 3, 2, 1] ∧
    signalYields .whole [1, 2, 3, 4] = some [1, 2, 3, 4, 3, 2, 1] := by
  have h := c7_extension_yields_two_periods [1, 2, 3, 4] (by simp)
  refine ⟨?_, ?_⟩
  · have h1 := h.1
    simpa using h1
  · have h2 := h.2.1
    simpa using h2

/-- C1: the claim fails on the code. The analysis pair consisting of the
half-sample-symmetric filter with coefficient vector containing one and
the half-sample-antisymmetric filter with coefficient vector containing
one half is complementary (the perfect-reconstruction distortion product
is twice a pure delay and the alias product vanishes), both mirrored
filter lengths are two, and the signal of length six is at least twice
that long; yet synthesis_1d applied to the two subbands of analysis_1d
returns the input delayed by one sample with the last sample lost, which
is not elementwise within one thousandth of the original signal. -/
theorem c1_roundtrip_fails_on_complementary_pair :
    isComplementary (Filter.HSS [1]) (Filter.HSA [1/2]) = true ∧
    Filter.len (Filter.HSS [1]) = some 2 ∧
    Filter.len (Filter.HSA [1/2]) = some 2 ∧
    2 * 2 ≤ ([1, 2, 3, 4, 5, 6] : List ℚ).length ∧
    (TwoChannelSubbandCoder.new (Filter.HSS [1]) (Filter.HSA [1/2])).analysis_1d
        [1, 2, 3, 4, 5, 6] = some ([1, 5, 9], [-1/2, -1/2, -1/2]) ∧
    (TwoChannelSubbandCoder.new (Filter.HSS [1]) (Filter.HSA [1/2])).synthesis_1d
        [1, 5, 9] [-1/2, -1/2, -1/2] = some [0, 1, 2, 3, 4, 5] ∧
    closeEnough (1/1000) [0, 1, 2, 3, 4, 5] [1, 2, 3, 4, 5, 6] = false := by
  with_unfolding_all decide

/-- C2, counterexample: the claim fails at three concrete inputs. For the
complementary half-sample pair, the signal of odd length three
reconstructs to a sequence of length four, not three; for the equally
complementary pair of the one-coefficient whole-sample-symmetric lowpass
and the half-sample-symmetric highpass, analysis_1d aborts on the signal
one to four and produces no round-trip output at all; and for the empty
signal even the well-behaved pair produces no output. -/
theorem c2_odd_length_roundtrip_is_longer :
    (isComplementary (Filter.HSS [1]) (Filter.HSA [1/2]) = true ∧
      (TwoChannelSubbandCoder.new (Filter.HSS [1]) (Filter.HSA [1/2])).analysis_1d
        [1, 2, 3] = some ([1, 5], [-1/2, -1/2]) ∧
      (TwoChannelSubbandCoder.new (Filter.HSS [1]) (Filter.HSA [1/2])).synthesis_1d
        [1, 5] [-1/2, -1/2] = some [0, 1, 2, 3] ∧
      ([0, 1, 2, 3] : List ℚ).length ≠ ([1, 2, 3] : List ℚ).length) ∧
    (isComplementary (Filter.WSS [1]) (Filter.HSS [-1]) = true ∧
      (Filter.WSS [1]).len = some 1 ∧
      (TwoChannelSubbandCoder.new (Filter.WSS [1]) (Filter.HSS [-1])).analysis_1d
        [1, 2, 3, 4] = none) ∧
    (TwoChannelSubbandCoder.new (Filter.HSS [1]) (Filter.HSA [1/2])).analysis_1d [] =
      none := by
  with_unfolding_all decide

/-- C3: the dwt whole-sample symmetric extension of the four-sample
signal, taken for sixteen terms, and its half-sample symmetric extension
taken for thirteen terms, are exactly the sequences the claim states. -/
theorem c3_extension_periodicity :
    dwtTake (wsDwtNext [1, 2, 3, 4]) 16 (wsDwtInit [1, 2, 3, 4]) =
      some [1, 2, 3, 4, 4, 3, 2, 1, 1, 2, 3, 4, 4, 3, 2, 1] ∧
    dwtTake (hsDwtNext [1, 2, 3, 4]) 13 (hsDwtInit [1, 2, 3, 4]) =
      some [1, 2, 3, 4, 3, 2, 1, 2, 3, 4, 3, 2, 1] := by
  with_unfolding_all decide

/-- C5: the claim fails on the code. For subband images of mismatched
dimensions, row_synthesis, column_synthesis and synthesis all return Ok
with the output silently truncated to the shorter operand (here a two-row
lowpass against a one-row highpass gives a one-row result, a two-column
lowpass against a one-column highpass gives a one-column result before
rotation) instead of a descriptive error. -/
theorem c5_mismatched_synthesis_truncates_without_error :
    (TwoChannelSubbandCoder.new (Filter.HSS [1]) (Filter.HSA [1/2])).row_synthesis
        ⟨[1, 2, 3, 4], 2, 2, 0, 1⟩ ⟨[5, 6], 2, 1, 0, 1⟩ =
      some (Except.ok ⟨[11/2, -9/2, 7, -5], 4, 1, 0, 1⟩) ∧
    (TwoChannelSubbandCoder.new (Filter.HSS [1]) (Filter.HSA [1/2])).column_synthesis
        ⟨[1, 2, 3, 4], 2, 2, 0, 1⟩ ⟨[5, 6], 1, 2, 0, 1⟩ =
      some (Except.ok ⟨[11/2, -9/2, 15/2, -9/2], 1, 4, 0, 1⟩) ∧
    (TwoChannelSubbandCoder.new (Filter.HSS [1]) (Filter.HSA [1/2])).synthesis
        (⟨[1, 2, 3, 4], 2, 2, 0, 1⟩, ⟨[5, 6], 2, 1, 0, 1⟩, ⟨[7], 1, 1, 0, 1⟩,
          ⟨[8], 1, 1, 0, 1⟩) =
      some (Except.ok ⟨[57/4, -27/4, -35/4, 9/4], 2, 2, 0, 1⟩) := by
  with_unfolding_all decide

/-- C6: the claim fails on the code. Constructing a coder from filters
with empty coefficient vectors succeeds unconditionally (new performs no
validation and stores the degenerate filters), and the failure surfaces
only later: apply on such a filter aborts during convolution. -/
theorem c6_empty_filter_accepted_at_construction :
    TwoChannelSubbandCoder.new (Filter.HSS []) (Filter.HSA []) =
      { h_lowpass := Filter.HSS [], h_highpass := Filter.HSA [],
        f_lowpass := Filter.HSS [], f_highpass := Filter.HSA [] } ∧
    (Filter.HSS []).apply [1, 2] = none := by
  with_unfolding_all decide

/-- C7, counterexample: the swt signal-extension iterator is not
infinite: on the four-sample signal the ninth next call of the
half-sample iterator and the eighth next call of the whole-sample
iterator return no sample. -/
theorem c7_signal_iterator_exhausts :
    (sigNextN .half [1, 2, 3, 4] 8 (SignalIter.initFor .half)).map Prod.fst = some none ∧
    (sigNextN .whole [1, 2, 3, 4] 7 (SignalIter.initFor .whole)).map Prod.fst = some none := by
  with_unfolding_all decide

/-- C9, counterexample: inverting the half-sample-antisymmetric filter
with stored coefficients one, two, three does not produce the
half-sample-symmetric filter with stored coefficients three, minus two,
one. -/
theorem c9_invert_hsa_not_reversed_coefficients :
    (Filter.HSA [1, 2, 3]).invert ≠ Filter.HSS [3, -2, 1] := by
  with_unfolding_all decide

/-- C9, amended: inverting that filter yields the half-sample-symmetric
filter with stored coefficients one, minus two, three, whose
symmetry-extended coefficient sequence reads three, minus two, one on the
mirrored half, exactly as the repository test observes through the
coefficient iterator. -/
theorem c9_invert_hsa_amended :
    (Filter.HSA [1, 2, 3]).invert = Filter.HSS [1, -2, 3] ∧
    (Filter.HSS [1, -2, 3]).coefficientsList = some [3, -2, 1, 1, -2, 3] := by
  with_unfolding_all decide

end Wsq
